import Mathlib

/-!
# akt::views : ring, pixel planes and glyph lookup

A shallow embedding of `src/akt/views/views.h`.

* `RingBase` nodes live in a heap that maps every node address to its `left`
  and `right` pointer; `RingBase::join` is the sequence of pointer writes of
  the source, each one reading the heap left by the previous one.
* `AddressablePlane<T>` is a size together with the cells its `storage`
  pointer refers to; a failed `assert` and an access outside those cells are
  two distinct faults.
* `MikroFont::glyph` returns a pointer into the font data, which is modelled
  by its byte offset from `data`.
-/

namespace akt.views

set_option linter.unusedSectionVars false

/-! ## RingBase -/

/-- Heap of `RingBase` nodes: the `left` and `right` member of every node. -/
structure RingHeap (α : Type) where
  left : α → α
  right : α → α

namespace RingHeap

variable {α : Type} [DecidableEq α]

/-- The write `n->left = v`. -/
def setLeft (h : RingHeap α) (n v : α) : RingHeap α :=
  { h with left := fun m => if m = n then v else h.left m }

/-- The write `n->right = v`. -/
def setRight (h : RingHeap α) (n v : α) : RingHeap α :=
  { h with right := fun m => if m = n then v else h.right m }

/-- The constructor `RingBase() { left = right = this; }` run at address `x`. -/
def construct (h : RingHeap α) (x : α) : RingHeap α :=
  (h.setRight x x).setLeft x x

/-- The heap in which every node has just been constructed. -/
def fresh : RingHeap α :=
  { left := fun n => n, right := fun n => n }

/-- The method `bool empty() const { return left == this; }`. -/
def empty (h : RingHeap α) (n : α) : Bool :=
  decide (h.left n = n)

/-- The static method `RingBase::join(dst, src)`, statement by statement. -/
def join (h : RingHeap α) (dst src : α) : RingHeap α :=
  -- src->left->right = src->right;
  let h1 := h.setRight (h.left src) (h.right src)
  -- src->right->left = src->left;
  let h2 := h1.setLeft (h1.right src) (h1.left src)
  -- src->left = src->right = src;
  let h3 := (h2.setRight src src).setLeft src src
  -- src->right = dst->right;
  let h4 := h3.setRight src (h3.right dst)
  -- src->left = dst;
  let h5 := h4.setLeft src dst
  -- dst->right->left = src;
  let h6 := h5.setLeft (h5.right dst) src
  -- dst->right = src;
  h6.setRight dst src

/-- Circularity: `n.right.left == n` and `n.left.right == n` for every node. -/
def Circular (h : RingHeap α) : Prop :=
  ∀ n, h.left (h.right n) = n ∧ h.right (h.left n) = n

instance circularDecidable [Fintype α] (h : RingHeap α) : Decidable h.Circular := by
  unfold Circular
  exact inferInstance

/-- Walking right from `a` visits the nodes of `l` in order and then reaches `b`. -/
def walk (h : RingHeap α) : α → List α → α → Prop
  | a, [], b => h.right a = b
  | a, c :: l, b => h.right a = c ∧ walk h c l b

instance walkDecidable (h : RingHeap α) : (a : α) → (l : List α) → (b : α) →
    Decidable (walk h a l b)
  | a, [], b => by unfold walk; exact inferInstance
  | a, c :: l, b => by
      unfold walk
      exact @instDecidableAnd _ _ _ (walkDecidable h c l b)

/-- The node that follows `dst` once `src` has been unlinked from its ring. -/
def afterUnlink (h : RingHeap α) (dst src : α) : α :=
  if dst = src then src else if dst = h.left src then h.right src else h.right dst

/-- A run of `join` calls, each given as the pair `(dst, src)`, in program order. -/
def joins (h : RingHeap α) (ops : List (α × α)) : RingHeap α :=
  ops.foldl (fun g op => join g op.1 op.2) h

end RingHeap

/-- Three nodes in one ring: walking right goes 0, 1, 2 and back to 0. -/
def ring3 : RingHeap (Fin 3) :=
  { left := fun n => n + 2, right := fun n => n + 1 }

/-- Five nodes in two rings: 0, 1, 2 in one and 3, 4 in the other. -/
def rings32 : RingHeap (Fin 5) :=
  { left := fun n => ![2, 0, 1, 4, 3] n, right := fun n => ![1, 2, 0, 4, 3] n }

/-! ## Coordinates -/

/-- Range of `typedef int16_t coord`. -/
def isCoord (z : Int) : Prop := -32768 ≤ z ∧ z ≤ 32767

instance isCoordDecidable (z : Int) : Decidable (isCoord z) := by
  unfold isCoord
  exact inferInstance

/-- Conversion of an `int` to `coord` (two's complement truncation to 16 bits). -/
def wrap16 (z : Int) : Int := (z + 32768) % 65536 - 32768

/-- Range of `int` (32 bits, as on the targets of the HAL this header includes). -/
def fitsInt (z : Int) : Prop := -2147483648 ≤ z ∧ z ≤ 2147483647

/-- The struct `Point {coord x, y;}`. -/
structure Point where
  x : Int
  y : Int
  deriving DecidableEq, Repr

/-- The struct `Size {coord w, h;}`. -/
structure Size where
  w : Int
  h : Int
  deriving DecidableEq, Repr

/-- Modelled from the spec: the body of the constructor `Size(int w, int h)` is not in
the header; it stores its two arguments in the signed 16-bit members `w` and `h`. -/
def Size.ofInts (w h : Int) : Size := ⟨wrap16 w, wrap16 h⟩

/-! ## AddressablePlane -/

/-- How a plane operation can go wrong: an `assert` fails, or a cell outside the
array behind `storage` is touched. -/
inductive Fault where
  | assertion
  | outside
  deriving DecidableEq, Repr

/-- The two casts of `AddressablePlane<T>`: `(T) value` and `(pixel) cell`. -/
structure PixelCast (τ : Type) where
  ofPixel : Nat → τ
  toPixel : τ → Nat

/-- The casts for `T` an unsigned integer type of `bits` bits; `pixel` is `uint16_t`. -/
def unsignedWord (bits : Nat) : PixelCast Nat :=
  { ofPixel := fun v => v % 2 ^ bits, toPixel := fun t => t % 2 ^ 16 }

/-- An `AddressablePlane<T>`: `size` and the cells `storage` points to. -/
structure AddressablePlane (τ : Type) where
  size : Size
  storage : List τ

/-- The subscript `p.y*size.w + p.x` as an exact integer. -/
def storageIndex (s : Size) (p : Point) : Int := p.y * s.w + p.x

namespace AddressablePlane

variable {τ : Type}

/-- The write `storage[i] = t`. -/
def store (pl : AddressablePlane τ) (i : Int) (t : τ) : Except Fault (AddressablePlane τ) :=
  if 0 ≤ i ∧ i < pl.storage.length then
    .ok { pl with storage := pl.storage.set i.toNat t }
  else .error .outside

/-- The read `storage[i]`. -/
def load (pl : AddressablePlane τ) (i : Int) : Except Fault τ :=
  if 0 ≤ i then
    match pl.storage[i.toNat]? with
    | some t => .ok t
    | none => .error .outside
  else .error .outside

/-- The method `set_pixel(Point p, pixel value)`. -/
def set_pixel (c : PixelCast τ) (pl : AddressablePlane τ) (p : Point) (value : Nat) :
    Except Fault (AddressablePlane τ) :=
  if ¬ (p.x ≥ 0 ∧ p.x < pl.size.w) then .error .assertion
  else if ¬ (p.y ≥ 0 ∧ p.y < pl.size.h) then .error .assertion
  else pl.store (storageIndex pl.size p) (c.ofPixel value)

/-- The loop `while (n-- > 0) *s++ = (T) value;` with `s` an index into the cells. -/
def fillCells (cells : List τ) (s : Int) (t : τ) : Nat → Except Fault (List τ)
  | 0 => .ok cells
  | n + 1 =>
    if 0 ≤ s ∧ s < cells.length then fillCells (cells.set s.toNat t) (s + 1) t n
    else .error .outside

/-- The method `set_pixels(Point p, unsigned int n, pixel value)`. -/
def set_pixels (c : PixelCast τ) (pl : AddressablePlane τ) (p : Point) (n : Nat)
    (value : Nat) : Except Fault (AddressablePlane τ) :=
  if ¬ (p.x ≥ 0 ∧ p.x < pl.size.w) then .error .assertion
  else if ¬ (p.y ≥ 0 ∧ p.y < pl.size.h) then .error .assertion
  else
    match fillCells pl.storage (storageIndex pl.size p) (c.ofPixel value) n with
    | .ok cells => .ok { pl with storage := cells }
    | .error e => .error e

/-- The cell that `get_pixel(p)` reads, before the cast to `pixel`. -/
def cell (pl : AddressablePlane τ) (p : Point) : Except Fault τ :=
  pl.load (storageIndex pl.size p)

/-- The method `get_pixel(Point p)`. -/
def get_pixel (c : PixelCast τ) (pl : AddressablePlane τ) (p : Point) : Except Fault Nat :=
  match pl.cell p with
  | .ok t => .ok (c.toPixel t)
  | .error e => .error e

/-- Modelled from the spec: the body of the default `PlaneBase::set_pixels` is not in
the header; the spec has it call `set_pixel` `n` times along a horizontal run, here at
`p`, then one pixel further right, and so on. -/
def set_pixels_default (c : PixelCast τ) (pl : AddressablePlane τ) (p : Point) :
    Nat → Nat → Except Fault (AddressablePlane τ)
  | 0, _ => .ok pl
  | n + 1, value =>
    match set_pixel c pl p value with
    | .ok g => set_pixels_default c g ⟨p.x + 1, p.y⟩ n value
    | .error e => .error e

/-- The plane has one cell for each pixel of its size. -/
def Backed (pl : AddressablePlane τ) : Prop :=
  (pl.storage.length : Int) = pl.size.w * pl.size.h

/-- The point lies inside the plane: it passes both assertions of `set_pixel`. -/
def InBounds (pl : AddressablePlane τ) (p : Point) : Prop :=
  (p.x ≥ 0 ∧ p.x < pl.size.w) ∧ (p.y ≥ 0 ∧ p.y < pl.size.h)

instance backedDecidable (pl : AddressablePlane τ) : Decidable pl.Backed := by
  unfold Backed
  exact inferInstance

instance inBoundsDecidable (pl : AddressablePlane τ) (p : Point) :
    Decidable (pl.InBounds p) := by
  unfold InBounds
  exact inferInstance

end AddressablePlane

/-- The class `Plane<T,W,H>`: the array `T data[W*H]` (with contents `cells`) handed to
`AddressablePlane<T>(data, Size(W, H))`; `W*H` is an `unsigned` product. -/
def Plane {τ : Type} (W H : Nat) (cells : Nat → τ) : AddressablePlane τ :=
  { size := Size.ofInts W H, storage := (List.range (W * H % 2 ^ 32)).map cells }

/-- A 2 by 2 plane of 16-bit words holding 10, 11 in row 0 and 12, 13 in row 1. -/
def plane22 : AddressablePlane Nat := Plane 2 2 (fun i => 10 + i)

/-! ## MikroFont -/

/-- The members of `MikroFont` that `glyph` reads, with the font bytes. -/
structure MikroFont where
  data : List Nat
  height_in_bytes : Nat
  glyph_stride : Nat
  first : Nat
  last : Nat

/-- The method `glyph(unsigned char c)`; the returned pointer is given as its byte
offset from `data`. -/
def MikroFont.glyph (f : MikroFont) (c : Nat) : Int :=
  let c := if c < f.first ∨ c > f.last then f.first else c
  ((c : Int) - (f.first : Int)) * (f.glyph_stride : Int)

/-- A two-glyph font for the digits 0 and 1 (codes 48 and 49), 5 columns of one byte
each after the width byte; the second record is the example of the header comment. -/
def digitFont : MikroFont :=
  { data := [0x05, 0x3e, 0x51, 0x49, 0x45, 0x3e, 0x04, 0x00, 0x42, 0x7f, 0x40, 0x00],
    height_in_bytes := 1, glyph_stride := 6, first := 48, last := 49 }

/-! ## Size and Rect -/

/-- The method `Size::empty()`: `w*h == 0`, the product taken in `int`. -/
def Size.empty (s : Size) : Bool := decide (s.w * s.h = 0)

/-- The class `Rect` with its two corners. -/
structure Rect where
  min : Point
  max : Point
  deriving DecidableEq, Repr

/-- The method `Rect::width()`: the `int` difference returned as a `coord`. -/
def Rect.width (r : Rect) : Int := wrap16 (r.max.x - r.min.x)

/-- The method `Rect::height()`: the `int` difference returned as a `coord`. -/
def Rect.height (r : Rect) : Int := wrap16 (r.max.y - r.min.y)

/-- The method `Rect::size()`. -/
def Rect.size (r : Rect) : Size := Size.ofInts r.width r.height

/-- The method `Rect::empty()`: `width()*height() == 0`, the product taken in `int`. -/
def Rect.empty (r : Rect) : Bool := decide (r.width * r.height = 0)

/-- The method `Rect::normal()`. -/
def Rect.normal (r : Rect) : Bool :=
  decide (r.max.x ≥ r.min.x) && decide (r.max.y ≥ r.min.y)

/-! ## The rgb565 palette -/

/-- The macro `BYTESWAP(u16)`. -/
def BYTESWAP (u16 : Nat) : Nat := ((u16 &&& 0xff) <<< 8) ||| (u16 >>> 8)

/-- The macro `RGB565(r,g,b)`; each argument is first cast to `uint16_t`. -/
def RGB565 (r g b : Nat) : Nat :=
  (((r % 65536) &&& 0xf8) <<< 8) ||| (((g % 65536) &&& 0xfc) <<< 3) ||| ((b % 65536) >>> 3)

namespace rgb565

/-- The enumerators of `rgb565::color`, in the order of the header. -/
def BLACK : Nat := BYTESWAP (RGB565 0 0 0)
def NAVY : Nat := BYTESWAP (RGB565 0 0 128)
def DARK_GREEN : Nat := BYTESWAP (RGB565 0 128 0)
def DARK_CYAN : Nat := BYTESWAP (RGB565 0 128 128)
def MAROON : Nat := BYTESWAP (RGB565 128 0 0)
def PURPLE : Nat := BYTESWAP (RGB565 128 0 128)
def OLIVE : Nat := BYTESWAP (RGB565 128 128 0)
def LIGHT_GRAY : Nat := BYTESWAP (RGB565 192 192 192)
def DARK_GRAY : Nat := BYTESWAP (RGB565 128 128 128)
def BLUE : Nat := BYTESWAP (RGB565 0 0 255)
def GREEN : Nat := BYTESWAP (RGB565 0 255 0)
def CYAN : Nat := BYTESWAP (RGB565 0 255 255)
def RED : Nat := BYTESWAP (RGB565 255 0 0)
def MAGENTA : Nat := BYTESWAP (RGB565 255 0 255)
def YELLOW : Nat := BYTESWAP (RGB565 255 255 0)
def WHITE : Nat := BYTESWAP (RGB565 255 255 255)
def ORANGE : Nat := BYTESWAP (RGB565 255 165 0)
def GREEN_YELLOW : Nat := BYTESWAP (RGB565 173 255 47)

end rgb565

/-! ## BitPlaneBase and BitPlane -/

/-- Conversion of an `int` to `unsigned` (32 bits). -/
def toUnsigned (z : Int) : Nat := (z % 4294967296).toNat

/-- The members of `BitPlaneBase`: `size`, `stride` and the bytes behind `storage`. -/
structure BitPlaneBase where
  size : Size
  stride : Nat
  storage : List Nat

/-- The constructor `BitPlaneBase(uint8_t *s, Size size)`: `stride((size.w+7)/8)`, an
`int` division stored in an `unsigned`. -/
def BitPlaneBase.create (s : List Nat) (size : Size) : BitPlaneBase :=
  { size := size, stride := toUnsigned (Int.tdiv (size.w + 7) 8), storage := s }

/-- The constructor `BitPlaneBase(uint8_t *s, Size size, unsigned stride)`. -/
def BitPlaneBase.createStrided (s : List Nat) (size : Size) (stride : Nat) : BitPlaneBase :=
  { size := size, stride := stride, storage := s }

/-- Modelled from the spec: the bodies of `BitPlaneBase::set_pixel` and `get_pixel` are
not in the header; the spec has pixel `(x, y)` live in the byte
`storage[y*stride + x/8]`. -/
def BitPlaneBase.byteIndex (b : BitPlaneBase) (p : Point) : Int :=
  p.y * (b.stride : Int) + Int.tdiv p.x 8

/-- The class `BitPlane<W,H>`: the array `uint8_t data[((W+7)*H)/8]` (with contents
`bytes`) handed to `BitPlaneBase(data, Size(W,H))`; the length is `unsigned` arithmetic. -/
def BitPlane (W H : Nat) (bytes : Nat → Nat) : BitPlaneBase :=
  BitPlaneBase.create
    ((List.range (((W + 7) % 2 ^ 32 * H) % 2 ^ 32 / 8)).map bytes) (Size.ofInts W H)

/-! ## Ring: closed forms of `join` -/

namespace RingHeap

variable {α : Type} [DecidableEq α]

theorem join_right (h : RingHeap α) (dst src n : α) :
    (join h dst src).right n =
      if n = dst then src
      else if n = src then afterUnlink h dst src
      else if n = h.left src then h.right src else h.right n := by
  simp only [join, setLeft, setRight, afterUnlink]
  split_ifs <;> first | rfl | cc

theorem join_left (h : RingHeap α) (dst src n : α) :
    (join h dst src).left n =
      if n = afterUnlink h dst src then src
      else if n = src then dst
      else if n = h.right src then h.left src else h.left n := by
  simp only [join, setLeft, setRight, afterUnlink]
  split_ifs <;> first | rfl | cc

set_option maxHeartbeats 2000000 in
theorem join_circular (h : RingHeap α) (hc : h.Circular) (dst src : α) :
    (join h dst src).Circular := by
  have hl : ∀ n, h.left (h.right n) = n := fun n => (hc n).1
  have hr : ∀ n, h.right (h.left n) = n := fun n => (hc n).2
  intro n
  have l1 := hl n
  have l2 := hl src
  have l3 := hl dst
  have l4 := hl (h.left src)
  have l5 := hl (h.left n)
  have r1 := hr n
  have r2 := hr src
  have r3 := hr dst
  have r4 := hr (h.right src)
  have r5 := hr (h.right dst)
  have r6 := hr (h.right n)
  constructor
  · rw [join_left, join_right]
    unfold afterUnlink
    split_ifs <;> cc
  · rw [join_left, join_right]
    unfold afterUnlink
    split_ifs <;> cc

theorem fresh_circular : (fresh : RingHeap α).Circular := fun _ => ⟨rfl, rfl⟩

theorem joins_circular (ops : List (α × α)) (h : RingHeap α) (hc : h.Circular) :
    (joins h ops).Circular := by
  induction ops generalizing h with
  | nil => exact hc
  | cons op ops ih => exact ih _ (join_circular h hc op.1 op.2)

/-- A node away from `dst` and `src` keeps its right link unless it was the left
neighbour of `src`. -/
theorem join_right_other (h : RingHeap α) (hc : h.Circular) (dst src n : α)
    (hd : n ≠ dst) (hs : n ≠ src) :
    (join h dst src).right n = if h.right n = src then h.right src else h.right n := by
  have l1 := (hc n).1
  have r2 := (hc src).2
  rw [join_right]
  split_ifs <;> first | rfl | cc

theorem join_right_src (h : RingHeap α) (hc : h.Circular) (dst src : α) (hne : dst ≠ src) :
    (join h dst src).right src = if h.right dst = src then h.right src else h.right dst := by
  have l1 := (hc dst).1
  have r2 := (hc src).2
  rw [join_right]
  unfold afterUnlink
  split_ifs <;> first | rfl | cc

theorem join_right_dst (h : RingHeap α) (dst src : α) :
    (join h dst src).right dst = src := by
  rw [join_right]; simp

theorem right_injective (h : RingHeap α) (hc : h.Circular) {a b : α}
    (e : h.right a = h.right b) : a = b := by
  have := congrArg h.left e
  rwa [(hc a).1, (hc b).1] at this

/-- A stretch of the old ring that avoids `dst` survives the join with `src` dropped. -/
theorem walk_join_filter (h : RingHeap α) (hc : h.Circular) (dst src t : α)
    (hne : dst ≠ src) (ht : t ≠ src) :
    ∀ (k : Nat) (l : List α) (x : α), l.length ≤ k → x ≠ src → x ≠ dst → dst ∉ l →
      walk h x l t → walk (join h dst src) x (l.filter (fun c => c ≠ src)) t := by
  intro k
  induction k with
  | zero =>
    intro l x hk hxs hxd _ hw
    have : l = [] := List.eq_nil_of_length_eq_zero (Nat.le_zero.mp hk)
    subst this
    simp only [walk] at hw
    simp only [List.filter_nil, walk]
    rw [join_right_other h hc dst src x hxd hxs, if_neg (by rw [hw]; exact ht)]
    exact hw
  | succ k ih =>
    intro l x hk hxs hxd hdl hw
    match l, hk, hdl, hw with
    | [], _, _, hw =>
      simp only [walk] at hw
      simp only [List.filter_nil, walk]
      rw [join_right_other h hc dst src x hxd hxs, if_neg (by rw [hw]; exact ht)]
      exact hw
    | y :: l1, hk, hdl, hw =>
      simp only [walk] at hw
      obtain ⟨hxy, hw1⟩ := hw
      have hyd : y ≠ dst := fun e => hdl (by simp [e])
      have hdl1 : dst ∉ l1 := fun m => hdl (List.mem_cons_of_mem _ m)
      have hk1 : l1.length ≤ k := by simpa using hk
      by_cases hys : y = src
      · subst hys
        match l1, hk1, hdl1, hw1 with
        | [], _, _, hw1 =>
          simp only [walk] at hw1
          simp only [List.filter_cons, List.filter_nil, walk, ne_eq, not_true_eq_false,
            decide_False, Bool.false_eq_true, if_false]
          rw [join_right_other h hc dst y x hxd hxs, if_pos hxy]
          exact hw1
        | z :: l2, hk2, hdl2, hw2 =>
          simp only [walk] at hw2
          obtain ⟨hyz, hw3⟩ := hw2
          have hzs : z ≠ y := by
            intro e
            apply hxs
            apply right_injective h hc
            rw [hxy, hyz, e]
          have hzd : z ≠ dst := fun e => hdl2 (by simp [e])
          have hdl3 : dst ∉ l2 := fun m => hdl2 (List.mem_cons_of_mem _ m)
          have hk3 : l2.length ≤ k := by
            simp only [List.length_cons] at hk2; omega
          have := ih l2 z hk3 hzs hzd hdl3 hw3
          simp only [List.filter_cons, ne_eq, not_true_eq_false, decide_False,
            Bool.false_eq_true, if_false, hzs, not_false_eq_true, decide_True, if_true, walk]
          refine ⟨?_, this⟩
          rw [join_right_other h hc dst y x hxd hxs, if_pos hxy]
          exact hyz
      · have := ih l1 y hk1 hys hyd hdl1 hw1
        simp only [List.filter_cons, ne_eq, hys, not_false_eq_true, decide_True, if_true, walk]
        refine ⟨?_, this⟩
        rw [join_right_other h hc dst src x hxd hxs, if_neg (by rw [hxy]; exact hys)]
        exact hxy

/-- The rest of a ring that loses `src` to a join elsewhere closes up behind it. -/
theorem walk_join_rest (h : RingHeap α) (hc : h.Circular) (dst src : α) :
    ∀ (l : List α) (x : α), x ≠ src → x ≠ dst → src ∉ l → dst ∉ l →
      walk h x l src → walk (join h dst src) x l (h.right src) := by
  intro l
  induction l with
  | nil =>
    intro x hxs hxd _ _ hw
    simp only [walk] at hw
    simp only [walk]
    rw [join_right_other h hc dst src x hxd hxs, if_pos hw]
  | cons y l ih =>
    intro x hxs hxd hsl hdl hw
    simp only [walk] at hw
    obtain ⟨hxy, hw1⟩ := hw
    have hys : y ≠ src := fun e => hsl (by simp [e])
    have hyd : y ≠ dst := fun e => hdl (by simp [e])
    simp only [walk]
    refine ⟨?_, ih y hys hyd (fun m => hsl (List.mem_cons_of_mem _ m))
      (fun m => hdl (List.mem_cons_of_mem _ m)) hw1⟩
    rw [join_right_other h hc dst src x hxd hxs, if_neg (by rw [hxy]; exact hys)]
    exact hxy

theorem join_left_src (h : RingHeap α) (hc : h.Circular) (dst src : α) (hne : dst ≠ src) :
    (join h dst src).left src = dst := by
  have l1 := (hc dst).1
  have r2 := (hc src).2
  have l2 := (hc src).1
  rw [join_left]
  unfold afterUnlink
  split_ifs <;> first | rfl | cc

/-- The new tour of the ring of `dst`: `dst`, `src`, then the old followers of `dst`. -/
theorem walk_join_dst (h : RingHeap α) (hc : h.Circular) (dst src : α) (hne : dst ≠ src)
    (cs : List α) (hd : dst ∉ cs) (hw : walk h dst cs dst) :
    walk (join h dst src) dst (src :: cs.filter (fun c => c ≠ src)) dst := by
  have hsd : src ≠ dst := fun e => hne e.symm
  simp only [walk]
  refine ⟨join_right_dst h dst src, ?_⟩
  match cs, hd, hw with
  | [], _, hw =>
    simp only [walk] at hw
    simp only [List.filter_nil, walk]
    rw [join_right_src h hc dst src hne, if_neg (by rw [hw]; exact hne)]
    exact hw
  | y :: l1, hd, hw =>
    simp only [walk] at hw
    obtain ⟨hxy, hw1⟩ := hw
    have hyd : y ≠ dst := fun e => hd (by simp [e])
    have hd1 : dst ∉ l1 := fun m => hd (List.mem_cons_of_mem _ m)
    by_cases hys : y = src
    · subst hys
      match l1, hd1, hw1 with
      | [], _, hw1 =>
        simp only [walk] at hw1
        simp only [List.filter_cons, List.filter_nil, walk, ne_eq, not_true_eq_false,
          decide_False, Bool.false_eq_true, if_false]
        rw [join_right_src h hc dst y hne, if_pos hxy]
        exact hw1
      | z :: l2, hd2, hw2 =>
        simp only [walk] at hw2
        obtain ⟨hyz, hw3⟩ := hw2
        have hzs : z ≠ y := by
          intro e
          apply hne
          apply right_injective h hc
          rw [hxy, hyz, e]
        have hzd : z ≠ dst := fun e => hd2 (by simp [e])
        have hd3 : dst ∉ l2 := fun m => hd2 (List.mem_cons_of_mem _ m)
        have := walk_join_filter h hc dst y dst hne hne l2.length l2 z le_rfl hzs hzd hd3 hw3
        simp only [List.filter_cons, ne_eq, not_true_eq_false, decide_False,
          Bool.false_eq_true, if_false, hzs, not_false_eq_true, decide_True, if_true, walk]
        refine ⟨?_, this⟩
        rw [join_right_src h hc dst y hne, if_pos hxy]
        exact hyz
    · have := walk_join_filter h hc dst src dst hne hne l1.length l1 y le_rfl hys hyd hd1 hw1
      simp only [List.filter_cons, ne_eq, hys, not_false_eq_true, decide_True, if_true, walk]
      refine ⟨?_, this⟩
      rw [join_right_src h hc dst src hne, if_neg (by rw [hxy]; exact hys)]
      exact hxy

/-- A singleton node that a join does not name stays a singleton. -/
theorem join_keeps_singleton (h : RingHeap α) (hc : h.Circular) (dst src n : α)
    (hd : dst ≠ n) (hs : src ≠ n) (hl : h.left n = n) (hr : h.right n = n) :
    (join h dst src).left n = n ∧ (join h dst src).right n = n := by
  have l2 := (hc src).1
  have l3 := (hc dst).1
  have r2 := (hc src).2
  constructor
  · rw [join_left]
    unfold afterUnlink
    split_ifs <;> first | assumption | cc
  · rw [join_right]
    unfold afterUnlink
    split_ifs <;> first | assumption | cc

theorem joins_keep_singleton (ops : List (α × α)) (n : α)
    (hn : ∀ op ∈ ops, op.1 ≠ n ∧ op.2 ≠ n) (h : RingHeap α) (hc : h.Circular)
    (hl : h.left n = n) (hr : h.right n = n) :
    (joins h ops).left n = n ∧ (joins h ops).right n = n := by
  induction ops generalizing h with
  | nil => exact ⟨hl, hr⟩
  | cons op ops ih =>
    have h1 := hn op (List.mem_cons_self _ _)
    have h2 := join_keeps_singleton h hc op.1 op.2 n h1.1 h1.2 hl hr
    exact ih (fun o ho => hn o (List.mem_cons_of_mem _ ho)) _
      (join_circular h hc op.1 op.2) h2.1 h2.2

theorem joins_append (h : RingHeap α) (ops : List (α × α)) (dst src : α) :
    joins h (ops ++ [(dst, src)]) = join (joins h ops) dst src := by
  simp [joins, List.foldl_append]

/-- Right after a join of two different nodes neither of them is a singleton. -/
theorem join_not_singleton (h : RingHeap α) (hc : h.Circular) (dst src : α) (hne : dst ≠ src) :
    (join h dst src).left dst ≠ dst ∧ (join h dst src).left src ≠ src := by
  have l2 := (hc src).1
  have l3 := (hc dst).1
  have r2 := (hc src).2
  have r3 := (hc dst).2
  constructor
  · rw [join_left]
    unfold afterUnlink
    split_ifs <;> intro e <;> cc
  · rw [join_left_src h hc dst src hne]
    exact hne

/-! ## Ring: the claims -/

/-- C1: a freshly constructed node has `left == right == itself`, and whenever
`n.right.left == n` and `n.left.right == n` hold for every node, they still hold for
every node after `join(dst, src)`, for any `dst` and `src` (equal or not, in the same
ring or not). -/
theorem ring_circularity_invariant (g h : RingHeap α) (x dst src : α) (hc : h.Circular) :
    ((construct g x).left x = x ∧ (construct g x).right x = x) ∧
      (join h dst src).Circular := by
  refine ⟨⟨?_, ?_⟩, join_circular h hc dst src⟩ <;> simp [construct, setLeft, setRight]

theorem ring_circularity_invariant_witness :
    ((construct rings32 3).left 3 = 3 ∧ (construct rings32 3).right 3 = 3) ∧
      (join rings32 0 3).Circular :=
  ring_circularity_invariant rings32 rings32 3 0 3 (by decide)

/-- C2: for `dst != src` in a circular structure, after `join(dst, src)` we have
`dst.right == src` and `src.left == dst`; a tour `dst, cs..., dst` of the old ring of
`dst` becomes the tour `dst, src, cs without src..., dst`; every node other than `dst`
and `src` is followed by its old follower, or by the one after `src` if that follower
was `src`; and if `src, a, ds..., src` was a tour of another ring, `a, ds..., a` is a
tour after the call. -/
theorem join_places_src_right_of_dst (h : RingHeap α) (hc : h.Circular) (dst src : α)
    (hne : dst ≠ src) :
    (join h dst src).right dst = src ∧ (join h dst src).left src = dst ∧
      (∀ cs, dst ∉ cs → walk h dst cs dst →
        walk (join h dst src) dst (src :: cs.filter (fun c => c ≠ src)) dst) ∧
      (∀ n, n ≠ dst → n ≠ src →
        (join h dst src).right n = if h.right n = src then h.right src else h.right n) ∧
      (∀ a ds, dst ∉ a :: ds → src ∉ a :: ds → walk h src (a :: ds) src →
        walk (join h dst src) a ds a) := by
  refine ⟨join_right_dst h dst src, join_left_src h hc dst src hne,
    fun cs hd hw => walk_join_dst h hc dst src hne cs hd hw,
    fun n hd hs => join_right_other h hc dst src n hd hs, ?_⟩
  intro a ds hd hs hw
  simp only [walk] at hw
  obtain ⟨ha, hw1⟩ := hw
  have has : a ≠ src := fun e => hs (by simp [e])
  have had : a ≠ dst := fun e => hd (by simp [e])
  have := walk_join_rest h hc dst src ds a has had
    (fun m => hs (List.mem_cons_of_mem _ m)) (fun m => hd (List.mem_cons_of_mem _ m)) hw1
  rwa [ha] at this

theorem join_places_src_right_of_dst_witness :
    (join rings32 3 1).right 3 = 1 ∧ (join rings32 3 1).left 1 = 3 ∧
      walk (join rings32 3 1) 3 [1, 4] 3 ∧ walk (join rings32 3 1) 2 [0] 2 ∧
      walk (join ring3 0 2) 0 [2, 1] 0 :=
  have a := join_places_src_right_of_dst rings32 (by decide) 3 1 (by decide)
  have b := join_places_src_right_of_dst ring3 (by decide) 0 2 (by decide)
  ⟨a.1, a.2.1, a.2.2.1 [4] (by decide) (by decide),
    a.2.2.2.2 2 [0] (by decide) (by decide) (by decide),
    b.2.2.1 [1, 2] (by decide) (by decide)⟩

/-- C3: for a node `x` of a circular structure with left neighbour `a` and right
neighbour `b`, after `join(x, x)` the node `x` is a singleton (`x.left == x.right == x`,
`x.empty()`), `a.right == b` and `b.left == a`, and no other link changes: away from
`x`, only the right link of `a` and the left link of `b` are written. -/
theorem join_self_removes (h : RingHeap α) (hc : h.Circular) (x : α) :
    (join h x x).left x = x ∧ (join h x x).right x = x ∧ (join h x x).empty x = true ∧
      (join h x x).right (h.left x) = h.right x ∧
      (join h x x).left (h.right x) = h.left x ∧
      ∀ n, n ≠ x → (n ≠ h.left x → (join h x x).right n = h.right n) ∧
        (n ≠ h.right x → (join h x x).left n = h.left n) := by
  have l1 := (hc x).1
  have r1 := (hc x).2
  have hl : (join h x x).left x = x := by rw [join_left]; simp [afterUnlink]
  refine ⟨hl, ?_, ?_, ?_, ?_, ?_⟩
  · rw [join_right]; simp
  · simp [empty, hl]
  · rw [join_right]
    unfold afterUnlink
    split_ifs <;> first | rfl | cc
  · rw [join_left]
    unfold afterUnlink
    split_ifs <;> first | rfl | cc
  · intro n hn
    constructor
    · intro hna
      rw [join_right, if_neg hn, if_neg hn, if_neg hna]
    · intro hnb
      rw [join_left]
      simp [afterUnlink, hn, hnb]

theorem join_self_removes_witness :
    (join ring3 1 1).left 1 = 1 ∧ (join ring3 1 1).right 1 = 1 ∧
      (join ring3 1 1).empty 1 = true ∧
      (join ring3 1 1).right (ring3.left 1) = ring3.right 1 ∧
      (join ring3 1 1).left (ring3.right 1) = ring3.left 1 ∧
      ∀ n, n ≠ 1 → (n ≠ ring3.left 1 → (join ring3 1 1).right n = ring3.right n) ∧
        (n ≠ ring3.right 1 → (join ring3 1 1).left n = ring3.left n) :=
  join_self_removes ring3 (by decide) 1

/-- C4 as stated fails: after `join(0, 1)` on fresh nodes, node 1 was never a `dst` and
yet is not empty; after `join(0, 0)`, node 0 was a `dst` and yet is empty. -/
theorem empty_iff_never_dst_fails :
    ¬ ((joins (fresh : RingHeap (Fin 2)) [(0, 1)]).empty 1 = true ↔
        ∀ op ∈ [((0 : Fin 2), (1 : Fin 2))], op.1 ≠ 1) ∧
      ¬ ((joins (fresh : RingHeap (Fin 2)) [(0, 0)]).empty 0 = true ↔
        ∀ op ∈ [((0 : Fin 2), (0 : Fin 2))], op.1 ≠ 0) := by
  decide

/-- C4, amended: after any sequence of joins on freshly constructed nodes, a node that
no join of the sequence had as `dst` or as `src` is empty; and after any sequence whose
last join is `join(dst, src)` with `dst != src`, neither `dst` nor `src` is empty. The
two halves are independent: each has its own sequence and its own hypothesis. -/
theorem empty_of_never_joined (ops pre : List (α × α)) (n dst src : α) :
    ((∀ op ∈ ops, op.1 ≠ n ∧ op.2 ≠ n) → (joins fresh ops).empty n = true) ∧
      (dst ≠ src →
        (joins fresh (pre ++ [(dst, src)])).empty dst = false ∧
        (joins fresh (pre ++ [(dst, src)])).empty src = false) := by
  constructor
  · intro hn
    have hs := joins_keep_singleton ops n hn fresh fresh_circular rfl rfl
    simp [empty, hs.1]
  · intro hne
    have hj := join_not_singleton (joins fresh pre)
      (joins_circular pre fresh fresh_circular) dst src hne
    rw [joins_append]
    exact ⟨by simp [empty, hj.1], by simp [empty, hj.2]⟩

theorem empty_of_never_joined_witness :
    (joins (fresh : RingHeap (Fin 4)) [(0, 1), (1, 1)]).empty 2 = true ∧
      ((joins (fresh : RingHeap (Fin 2)) ([] ++ [(0, 1)])).empty 0 = false ∧
        (joins (fresh : RingHeap (Fin 2)) ([] ++ [(0, 1)])).empty 1 = false) ∧
      ((joins (fresh : RingHeap (Fin 4)) ([(0, 1), (1, 1)] ++ [(3, 0)])).empty 3 = false ∧
        (joins (fresh : RingHeap (Fin 4)) ([(0, 1), (1, 1)] ++ [(3, 0)])).empty 0 = false) :=
  ⟨(empty_of_never_joined [(0, 1), (1, 1)] [] 2 3 0).1 (by decide),
    (empty_of_never_joined ([] : List (Fin 2 × Fin 2)) [] 0 0 1).2 (by decide),
    (empty_of_never_joined [(0, 1), (1, 1)] [(0, 1), (1, 1)] 2 3 0).2 (by decide)⟩

end RingHeap

/-! ## AddressablePlane: cells and indices -/

namespace AddressablePlane

variable {τ : Type}

theorem index_in_storage (pl : AddressablePlane τ) (p : Point) (hb : pl.Backed)
    (hp : pl.InBounds p) :
    0 ≤ storageIndex pl.size p ∧ storageIndex pl.size p < pl.storage.length := by
  obtain ⟨⟨hx0, hx1⟩, hy0, hy1⟩ := hp
  unfold Backed at hb
  unfold storageIndex
  have h1 : 0 ≤ p.y * pl.size.w := mul_nonneg hy0 (by omega)
  have h2 : (p.y + 1) * pl.size.w ≤ pl.size.h * pl.size.w :=
    mul_le_mul_of_nonneg_right (by omega) (by omega)
  constructor
  · omega
  · rw [hb]
    nlinarith

/-- Two in-bounds points: the index of `q` falls in the run of `n` cells that starts at
`p` exactly when `q` lies in the same row, at most `n - 1` pixels right of `p`. -/
theorem index_in_run (s : Size) (p q : Point) (n : Nat)
    (hp : 0 ≤ p.x) (hn : p.x + n ≤ s.w) (hq : 0 ≤ q.x ∧ q.x < s.w) :
    (storageIndex s p ≤ storageIndex s q ∧ storageIndex s q < storageIndex s p + n) ↔
      (q.y = p.y ∧ p.x ≤ q.x ∧ q.x < p.x + n) := by
  unfold storageIndex
  constructor
  · rintro ⟨h1, h2⟩
    have hy : q.y = p.y := by
      rcases lt_trichotomy q.y p.y with hlt | heq | hgt
      · have : (q.y + 1) * s.w ≤ p.y * s.w :=
          mul_le_mul_of_nonneg_right (by omega) (by omega)
        nlinarith
      · exact heq
      · have : (p.y + 1) * s.w ≤ q.y * s.w :=
          mul_le_mul_of_nonneg_right (by omega) (by omega)
        nlinarith
    rw [hy] at h1 h2
    exact ⟨hy, by omega, by omega⟩
  · rintro ⟨hy, h1, h2⟩
    rw [hy]
    exact ⟨by omega, by omega⟩

theorem fillCells_spec (t : τ) :
    ∀ (n : Nat) (cells : List τ) (k : Nat), k + n ≤ cells.length →
      ∃ out, fillCells cells (k : Int) t n = .ok out ∧ out.length = cells.length ∧
        ∀ j : Nat, out[j]? = if k ≤ j ∧ j < k + n then some t else cells[j]? := by
  intro n
  induction n with
  | zero =>
    intro cells k _
    refine ⟨cells, rfl, rfl, fun j => ?_⟩
    rw [if_neg (by omega)]
  | succ n ih =>
    intro cells k hk
    have hin : (0 : Int) ≤ (k : Int) ∧ (k : Int) < (cells.length : Int) := by
      constructor <;> omega
    obtain ⟨out, ho, hl, hj⟩ := ih (cells.set k t) (k + 1) (by simp; omega)
    refine ⟨out, ?_, by simpa using hl, fun j => ?_⟩
    · simp only [fillCells, hin, and_self, if_true, Int.toNat_ofNat]
      exact_mod_cast ho
    · rw [hj j, List.getElem?_set]
      by_cases h1 : k = j
      · subst h1
        simp
        omega
      · by_cases h2 : k + 1 ≤ j ∧ j < k + 1 + n
        · rw [if_pos h2, if_pos (by omega)]
        · rw [if_neg h2, if_neg h1, if_neg (by omega)]

theorem set_pixel_in_bounds (c : PixelCast τ) (pl : AddressablePlane τ) (p : Point)
    (v : Nat) (hp : pl.InBounds p) :
    set_pixel c pl p v = pl.store (storageIndex pl.size p) (c.ofPixel v) := by
  unfold set_pixel
  rw [if_neg (not_not.mpr hp.1), if_neg (not_not.mpr hp.2)]

theorem set_pixel_ok (c : PixelCast τ) (pl : AddressablePlane τ) (p : Point) (v : Nat)
    (hb : pl.Backed) (hp : pl.InBounds p) :
    set_pixel c pl p v = .ok { pl with
      storage := pl.storage.set (storageIndex pl.size p).toNat (c.ofPixel v) } := by
  rw [set_pixel_in_bounds c pl p v hp]
  unfold store
  rw [if_pos (index_in_storage pl p hb hp)]

/-- The default run and the pointer loop agree, whatever the length of the storage. -/
theorem default_eq_fill (c : PixelCast τ) (v : Nat) :
    ∀ (n : Nat) (pl : AddressablePlane τ) (p : Point), 0 ≤ p.x → p.x + n ≤ pl.size.w →
      (p.y ≥ 0 ∧ p.y < pl.size.h) →
      set_pixels_default c pl p n v =
        match fillCells pl.storage (storageIndex pl.size p) (c.ofPixel v) n with
        | .ok cells => .ok { pl with storage := cells }
        | .error e => .error e := by
  intro n
  induction n with
  | zero => intro pl p _ _ _; rfl
  | succ n ih =>
    intro pl p hx hn hy
    have hp : pl.InBounds p := ⟨⟨hx, by omega⟩, hy⟩
    simp only [set_pixels_default, set_pixel_in_bounds c pl p v hp, store, fillCells]
    by_cases hin : 0 ≤ storageIndex pl.size p ∧ storageIndex pl.size p < pl.storage.length
    · rw [if_pos hin, if_pos hin]
      simp only []
      have hs : storageIndex pl.size ⟨p.x + 1, p.y⟩ = storageIndex pl.size p + 1 := by
        simp only [storageIndex]; ring
      have hi := ih { pl with
        storage := pl.storage.set (storageIndex pl.size p).toNat (c.ofPixel v) }
        ⟨p.x + 1, p.y⟩ (by simp only []; omega)
        (by simp only []; push_cast at hn; omega) hy
      rw [hi]
      simp only [hs]
    · rw [if_neg hin, if_neg hin]

theorem cell_eq (pl : AddressablePlane τ) (q : Point) (h0 : 0 ≤ storageIndex pl.size q) :
    pl.cell q = match pl.storage[(storageIndex pl.size q).toNat]? with
      | some t => .ok t
      | none => .error .outside := by
  simp only [cell, load, h0, if_true]

theorem run_in_storage (pl : AddressablePlane τ) (p : Point) (n : Nat) (hb : pl.Backed)
    (hp : pl.InBounds p) (hn : p.x + n ≤ pl.size.w) :
    storageIndex pl.size p + n ≤ pl.storage.length := by
  obtain ⟨⟨hx0, hx1⟩, hy0, hy1⟩ := hp
  unfold Backed at hb
  unfold storageIndex
  have h2 : (p.y + 1) * pl.size.w ≤ pl.size.h * pl.size.w :=
    mul_le_mul_of_nonneg_right (by omega) (by omega)
  rw [hb]
  nlinarith

theorem set_pixels_cells (c : PixelCast τ) (pl : AddressablePlane τ) (p : Point) (n v : Nat)
    (hb : pl.Backed) (hp : pl.InBounds p) (hn : p.x + n ≤ pl.size.w) :
    ∃ g, set_pixels c pl p n v = .ok g ∧ g.size = pl.size ∧
      ∀ q, pl.InBounds q → g.cell q =
        if q.y = p.y ∧ p.x ≤ q.x ∧ q.x < p.x + n then .ok (c.ofPixel v) else pl.cell q := by
  have h0 := (index_in_storage pl p hb hp).1
  have hk : ((storageIndex pl.size p).toNat : Int) = storageIndex pl.size p :=
    Int.toNat_of_nonneg h0
  have hr := run_in_storage pl p n hb hp hn
  obtain ⟨out, ho, hl, hj⟩ := fillCells_spec (c.ofPixel v) n pl.storage
    (storageIndex pl.size p).toNat (by omega)
  rw [hk] at ho
  refine ⟨{ pl with storage := out }, ?_, rfl, ?_⟩
  · unfold set_pixels
    rw [if_neg (not_not.mpr hp.1), if_neg (not_not.mpr hp.2), ho]
  · intro q hq
    have hq0 := (index_in_storage pl q hb hq).1
    have hqk : ((storageIndex pl.size q).toNat : Int) = storageIndex pl.size q :=
      Int.toNat_of_nonneg hq0
    have hrun := index_in_run pl.size p q n hp.1.1 hn hq.1
    rw [cell_eq pl q hq0, cell_eq { pl with storage := out } q hq0]
    simp only []
    rw [hj]
    by_cases hc : q.y = p.y ∧ p.x ≤ q.x ∧ q.x < p.x + n
    · have := hrun.mpr hc
      rw [if_pos hc, if_pos (by omega)]
    · have := fun h => hc (hrun.mp h)
      rw [if_neg hc, if_neg (by omega)]

/-! ## AddressablePlane: the claims -/

/-- C5: on a plane that has its `w*h` cells, for every in-bounds point `p` and value
`v`, `set_pixel(p, v)` succeeds and `get_pixel(p)` then returns `v` cast to `T` and back
to `pixel`; for `T` an unsigned word of `bits` bits that is `v` itself whenever
`v < 2^bits` (every 16-bit `v` when `bits = 16`). -/
theorem plane_round_trip (c : PixelCast τ) (pl : AddressablePlane τ) (p : Point) (v : Nat)
    (hb : pl.Backed) (hp : pl.InBounds p) :
    (∃ g, set_pixel c pl p v = .ok g ∧
        get_pixel c g p = .ok (c.toPixel (c.ofPixel v))) ∧
      (∀ bits, v < 2 ^ bits → v < 2 ^ 16 →
        (unsignedWord bits).toPixel ((unsignedWord bits).ofPixel v) = v) := by
  constructor
  · refine ⟨_, set_pixel_ok c pl p v hb hp, ?_⟩
    obtain ⟨h0, h1⟩ := index_in_storage pl p hb hp
    have hlt : (storageIndex pl.size p).toNat < pl.storage.length := by omega
    unfold get_pixel
    rw [cell_eq { pl with
      storage := pl.storage.set (storageIndex pl.size p).toNat (c.ofPixel v) } p h0]
    simp only [List.getElem?_set, hlt, if_true]
  · intro bits h1 h2
    simp only [unsignedWord, Nat.mod_eq_of_lt h1, Nat.mod_eq_of_lt h2]

theorem plane_round_trip_witness :
    (∃ g, set_pixel (unsignedWord 16) plane22 ⟨1, 1⟩ 65535 = .ok g ∧
        get_pixel (unsignedWord 16) g ⟨1, 1⟩ =
          .ok ((unsignedWord 16).toPixel ((unsignedWord 16).ofPixel 65535))) ∧
      (∀ bits, 65535 < 2 ^ bits → 65535 < 2 ^ 16 →
        (unsignedWord bits).toPixel ((unsignedWord bits).ofPixel 65535) = 65535) :=
  plane_round_trip (unsignedWord 16) plane22 ⟨1, 1⟩ 65535 (by decide) (by decide)

/-- C6: for a plane size `(w, h)` with `w, h` in `0..32767` and a point that passes the
assertions of `set_pixel`, the product `p.y*w` and the index `p.y*w + p.x` fit an `int`,
and `0 <= p.y*w + p.x < w*h`, where `w*h` is the length of the array `data[W*H]` of the
fixed-capacity `Plane<T,W,H>` of that size. -/
theorem storage_index_in_array (s : Size) (p : Point) (cells : Nat → τ)
    (hw : 0 ≤ s.w ∧ s.w ≤ 32767) (hh : 0 ≤ s.h ∧ s.h ≤ 32767)
    (hx : p.x ≥ 0 ∧ p.x < s.w) (hy : p.y ≥ 0 ∧ p.y < s.h) :
    fitsInt (p.y * s.w) ∧ fitsInt (storageIndex s p) ∧
      0 ≤ storageIndex s p ∧ storageIndex s p < s.w * s.h ∧
      (Plane s.w.toNat s.h.toNat cells).size = s ∧
      ((Plane s.w.toNat s.h.toNat cells).storage.length : Int) = s.w * s.h := by
  obtain ⟨hw0, hw1⟩ := hw
  obtain ⟨hh0, hh1⟩ := hh
  obtain ⟨hx0, hx1⟩ := hx
  obtain ⟨hy0, hy1⟩ := hy
  have h1 : 0 ≤ p.y * s.w := mul_nonneg hy0 hw0
  have h2 : (p.y + 1) * s.w ≤ s.h * s.w := mul_le_mul_of_nonneg_right (by omega) hw0
  have h3 : s.h * s.w ≤ 32767 * 32767 := mul_le_mul hh1 hw1 hw0 (by norm_num)
  have h4 : s.w * s.h = s.h * s.w := mul_comm _ _
  have h5 : (p.y + 1) * s.w = p.y * s.w + s.w := by ring
  have hW : (s.w.toNat : Int) = s.w := Int.toNat_of_nonneg hw0
  have hH : (s.h.toNat : Int) = s.h := Int.toNat_of_nonneg hh0
  unfold fitsInt storageIndex
  refine ⟨⟨by omega, by omega⟩, ⟨by omega, by omega⟩, by omega, by omega, ?_, ?_⟩
  · cases s with
    | mk w h =>
      simp only [Plane, Size.ofInts, wrap16, Size.mk.injEq] at *
      rw [hW, hH]
      omega
  · simp only [Plane, List.length_map, List.length_range]
    have hlt : s.w.toNat * s.h.toNat < 2 ^ 32 := by
      have : ((s.w.toNat * s.h.toNat : Nat) : Int) < 2 ^ 32 := by
        push_cast
        rw [hW, hH]
        omega
      exact_mod_cast this
    rw [Nat.mod_eq_of_lt hlt]
    push_cast
    rw [hW, hH]

theorem storage_index_in_array_witness :
    fitsInt (32766 * 32767) ∧ fitsInt (storageIndex ⟨32767, 32767⟩ ⟨32766, 32766⟩) ∧
      0 ≤ storageIndex ⟨32767, 32767⟩ ⟨32766, 32766⟩ ∧
      storageIndex ⟨32767, 32767⟩ ⟨32766, 32766⟩ < 32767 * 32767 ∧
      (Plane (32767 : Int).toNat (32767 : Int).toNat (fun _ => 0)).size = ⟨32767, 32767⟩ ∧
      ((Plane (32767 : Int).toNat (32767 : Int).toNat (fun _ => 0)).storage.length : Int)
        = 32767 * 32767 :=
  storage_index_in_array ⟨32767, 32767⟩ ⟨32766, 32766⟩ (fun _ => 0)
    (by decide) (by decide) (by decide) (by decide)

/-- C7, evaluated: `get_pixel` has no assertion, so it never fails one. On the 2 by 2
plane the point (2, 0) lies outside, `set_pixel` fails its assertion there, but
`get_pixel` reads cell 2, which is the pixel (0, 1). -/
theorem get_pixel_has_no_assertion (c : PixelCast τ) (pl : AddressablePlane τ) (p : Point) :
    get_pixel c pl p ≠ .error .assertion ∧
      ¬ plane22.InBounds ⟨2, 0⟩ ∧
      set_pixel (unsignedWord 16) plane22 ⟨2, 0⟩ 7 = .error .assertion ∧
      get_pixel (unsignedWord 16) plane22 ⟨2, 0⟩ = .ok 12 ∧
      get_pixel (unsignedWord 16) plane22 ⟨0, 1⟩ = .ok 12 := by
  refine ⟨?_, by decide, rfl, rfl, rfl⟩
  unfold get_pixel cell load
  split_ifs
  · cases pl.storage[(storageIndex pl.size p).toNat]? <;> simp
  · simp

/-- C8: for an in-bounds `p` and `p.x + n <= size.w`, the pointer loop of
`AddressablePlane::set_pixels` gives the same plane as `n` calls of `set_pixel` along
the row; it succeeds, keeps the size, leaves `(T) v` in exactly the cells of the pixels
`(p.x .. p.x+n-1, p.y)` and every other in-bounds pixel as it was (nothing changes for
`n = 0`). -/
theorem set_pixels_refines_default (c : PixelCast τ) (pl : AddressablePlane τ) (p : Point)
    (n v : Nat) (hb : pl.Backed) (hp : pl.InBounds p) (hn : p.x + n ≤ pl.size.w) :
    set_pixels c pl p n v = set_pixels_default c pl p n v ∧
      ∃ g, set_pixels c pl p n v = .ok g ∧ g.size = pl.size ∧
        ∀ q, pl.InBounds q → g.cell q =
          if q.y = p.y ∧ p.x ≤ q.x ∧ q.x < p.x + n then .ok (c.ofPixel v) else pl.cell q := by
  refine ⟨?_, set_pixels_cells c pl p n v hb hp hn⟩
  rw [default_eq_fill c v n pl p hp.1.1 hn hp.2]
  unfold set_pixels
  rw [if_neg (not_not.mpr hp.1), if_neg (not_not.mpr hp.2)]

theorem set_pixels_refines_default_witness :
    set_pixels (unsignedWord 16) plane22 ⟨0, 1⟩ 2 7 =
        set_pixels_default (unsignedWord 16) plane22 ⟨0, 1⟩ 2 7 ∧
      ∃ g, set_pixels (unsignedWord 16) plane22 ⟨0, 1⟩ 2 7 = .ok g ∧ g.size = plane22.size ∧
        ∀ q, plane22.InBounds q → g.cell q =
          if q.y = 1 ∧ 0 ≤ q.x ∧ q.x < 0 + (2 : Nat) then .ok ((unsignedWord 16).ofPixel 7)
          else plane22.cell q :=
  set_pixels_refines_default (unsignedWord 16) plane22 ⟨0, 1⟩ 2 7
    (by decide) (by decide) (by decide)

end AddressablePlane

/-! ## MikroFont: the claims -/

/-- C9: for a character code below `first` or above `last`, `glyph` returns what it
returns for `first`, the record at byte offset 0 of the font data; it returns a pointer
in every case and has no error result. -/
theorem glyph_fallback (f : MikroFont) (c : Nat) (hc : c < f.first ∨ c > f.last) :
    f.glyph c = f.glyph f.first ∧ f.glyph c = 0 := by
  simp [MikroFont.glyph, hc]

theorem glyph_fallback_witness :
    digitFont.glyph 65 = digitFont.glyph digitFont.first ∧ digitFont.glyph 65 = 0 :=
  glyph_fallback digitFont 65 (by decide)

/-- C10: for character codes within `[first, last]`, `glyph(c)` is the record at byte
offset `(c - first) * glyph_stride`; two in-range codes get records
`|c1 - c2| * glyph_stride` bytes apart, which are different records when
`glyph_stride > 0` and `c1 != c2`. -/
theorem glyph_indexed (f : MikroFont) (c1 c2 : Nat)
    (h1 : f.first ≤ c1 ∧ c1 ≤ f.last) (h2 : f.first ≤ c2 ∧ c2 ≤ f.last) :
    f.glyph c1 = ((c1 : Int) - f.first) * f.glyph_stride ∧
      |f.glyph c1 - f.glyph c2| = |(c1 : Int) - c2| * f.glyph_stride ∧
      (0 < f.glyph_stride → c1 ≠ c2 → f.glyph c1 ≠ f.glyph c2) := by
  have e1 : ¬ (c1 < f.first ∨ c1 > f.last) := by omega
  have e2 : ¬ (c2 < f.first ∨ c2 > f.last) := by omega
  have g1 : f.glyph c1 = ((c1 : Int) - f.first) * f.glyph_stride := by
    simp only [MikroFont.glyph, e1, if_false]
  have g2 : f.glyph c2 = ((c2 : Int) - f.first) * f.glyph_stride := by
    simp only [MikroFont.glyph, e2, if_false]
  have hd : f.glyph c1 - f.glyph c2 = ((c1 : Int) - c2) * f.glyph_stride := by
    rw [g1, g2]; ring
  refine ⟨g1, ?_, ?_⟩
  · rw [hd, abs_mul, abs_of_nonneg (Int.natCast_nonneg f.glyph_stride)]
  · intro hs hne e
    have h0 : ((c1 : Int) - c2) * f.glyph_stride = 0 := by rw [← hd, e, sub_self]
    rcases mul_eq_zero.mp h0 with h | h
    · exact hne (by omega)
    · omega

theorem glyph_indexed_witness :
    digitFont.glyph 49 = (((49 : Nat) : Int) - digitFont.first) * digitFont.glyph_stride ∧
      |digitFont.glyph 49 - digitFont.glyph 48| =
        |((49 : Nat) : Int) - (48 : Nat)| * digitFont.glyph_stride ∧
      (0 < digitFont.glyph_stride → 49 ≠ 48 → digitFont.glyph 49 ≠ digitFont.glyph 48) :=
  glyph_indexed digitFont 49 48 (by decide) (by decide)

/-! ## The rgb565 palette: the claim -/

theorem RGB565_eq (r g b : Nat) (hr : r ≤ 255) (hg : g ≤ 255) (hb : b ≤ 255) :
    RGB565 r g b = (r >>> 3) * 2048 + (g >>> 2) * 32 + (b >>> 3) := by
  have e1 : ((r % 65536) &&& 0xf8) <<< 8 = 2 ^ 11 * (r / 8) := by
    interval_cases r <;> rfl
  have e2 : ((g % 65536) &&& 0xfc) <<< 3 = 2 ^ 5 * (g / 4) := by
    interval_cases g <;> rfl
  have e3 : (b % 65536) >>> 3 = b / 8 := by
    rw [Nat.mod_eq_of_lt (by omega), Nat.shiftRight_eq_div_pow]
  have hB : b / 8 < 2 ^ 5 := by norm_num; omega
  have hGB : 2 ^ 5 * (g / 4) + b / 8 < 2 ^ 11 := by norm_num; omega
  unfold RGB565
  rw [e1, e2, e3, Nat.lor_assoc, ← Nat.mul_add_lt_is_or hB, ← Nat.mul_add_lt_is_or hGB,
    Nat.shiftRight_eq_div_pow, Nat.shiftRight_eq_div_pow, Nat.shiftRight_eq_div_pow]
  norm_num
  omega

theorem BYTESWAP_eq (x : Nat) (hx : x < 65536) :
    BYTESWAP x = 256 * (x % 256) + x / 256 := by
  have e1 : x &&& 0xff = x % 256 := Nat.and_pow_two_sub_one_eq_mod x 8
  have hlt : x / 2 ^ 8 < 2 ^ 8 := by norm_num; omega
  unfold BYTESWAP
  rw [e1, Nat.shiftLeft_eq, Nat.shiftRight_eq_div_pow, Nat.mul_comm,
    ← Nat.mul_add_lt_is_or hlt]
  norm_num

/-- C11: for `r, g, b` in `0..255`, `BYTESWAP(RGB565(r, g, b))` is below `2^16`, its
high byte is the low byte and its low byte the high byte of
`(r >> 3) * 2048 + (g >> 2) * 32 + (b >> 3)`; the 18 enumerators of `rgb565::color`,
each defined as this expression for its `(r, g, b)`, have the values listed, among them
`BLACK = 0x0000`, `WHITE = 0xFFFF`, `RED = 0x00F8`, `GREEN = 0xE007`, `BLUE = 0x1F00`
and `ORANGE = 0x20FD`. -/
theorem rgb565_is_byteswapped_565 (r g b : Nat) (hr : r ≤ 255) (hg : g ≤ 255)
    (hb : b ≤ 255) :
    (BYTESWAP (RGB565 r g b) < 2 ^ 16 ∧
      BYTESWAP (RGB565 r g b) / 256 = ((r >>> 3) * 2048 + (g >>> 2) * 32 + (b >>> 3)) % 256 ∧
      BYTESWAP (RGB565 r g b) % 256 = ((r >>> 3) * 2048 + (g >>> 2) * 32 + (b >>> 3)) / 256) ∧
    (rgb565.BLACK = 0x0000 ∧ rgb565.NAVY = 0x1000 ∧ rgb565.DARK_GREEN = 0x0004 ∧
      rgb565.DARK_CYAN = 0x1004 ∧ rgb565.MAROON = 0x0080 ∧ rgb565.PURPLE = 0x1080 ∧
      rgb565.OLIVE = 0x0084 ∧ rgb565.LIGHT_GRAY = 0x18C6 ∧ rgb565.DARK_GRAY = 0x1084 ∧
      rgb565.BLUE = 0x1F00 ∧ rgb565.GREEN = 0xE007 ∧ rgb565.CYAN = 0xFF07 ∧
      rgb565.RED = 0x00F8 ∧ rgb565.MAGENTA = 0x1FF8 ∧ rgb565.YELLOW = 0xE0FF ∧
      rgb565.WHITE = 0xFFFF ∧ rgb565.ORANGE = 0x20FD ∧ rgb565.GREEN_YELLOW = 0xE5AF) := by
  have hX := RGB565_eq r g b hr hg hb
  have hlt : RGB565 r g b < 65536 := by
    rw [hX, Nat.shiftRight_eq_div_pow, Nat.shiftRight_eq_div_pow, Nat.shiftRight_eq_div_pow]
    norm_num
    omega
  have hS := BYTESWAP_eq (RGB565 r g b) hlt
  refine ⟨⟨?_, ?_, ?_⟩, by decide⟩
  · rw [hS]; norm_num; omega
  · rw [hS, ← hX]; omega
  · rw [hS, ← hX]; omega

theorem rgb565_is_byteswapped_565_witness :
    (BYTESWAP (RGB565 255 165 0) < 2 ^ 16 ∧
      BYTESWAP (RGB565 255 165 0) / 256 =
        ((255 >>> 3) * 2048 + (165 >>> 2) * 32 + (0 >>> 3)) % 256 ∧
      BYTESWAP (RGB565 255 165 0) % 256 =
        ((255 >>> 3) * 2048 + (165 >>> 2) * 32 + (0 >>> 3)) / 256) ∧
    (rgb565.BLACK = 0x0000 ∧ rgb565.NAVY = 0x1000 ∧ rgb565.DARK_GREEN = 0x0004 ∧
      rgb565.DARK_CYAN = 0x1004 ∧ rgb565.MAROON = 0x0080 ∧ rgb565.PURPLE = 0x1080 ∧
      rgb565.OLIVE = 0x0084 ∧ rgb565.LIGHT_GRAY = 0x18C6 ∧ rgb565.DARK_GRAY = 0x1084 ∧
      rgb565.BLUE = 0x1F00 ∧ rgb565.GREEN = 0xE007 ∧ rgb565.CYAN = 0xFF07 ∧
      rgb565.RED = 0x00F8 ∧ rgb565.MAGENTA = 0x1FF8 ∧ rgb565.YELLOW = 0xE0FF ∧
      rgb565.WHITE = 0xFFFF ∧ rgb565.ORANGE = 0x20FD ∧ rgb565.GREEN_YELLOW = 0xE5AF) :=
  rgb565_is_byteswapped_565 255 165 0 (by decide) (by decide) (by decide)

/-! ## BitPlaneBase and BitPlane: the claims -/

theorem create_stride (s : List Nat) (size : Size) (hw : 0 ≤ size.w ∧ size.w ≤ 32767) :
    ((BitPlaneBase.create s size).stride : Int) = (size.w + 7) / 8 := by
  obtain ⟨h0, h1⟩ := hw
  have hq0 : 0 ≤ (size.w + 7) / 8 := Int.ediv_nonneg (by omega) (by norm_num)
  have hq1 : (size.w + 7) / 8 < 4294967296 := by omega
  simp only [BitPlaneBase.create, toUnsigned]
  rw [Int.tdiv_eq_ediv (by omega) (by norm_num), Int.emod_eq_of_lt hq0 hq1,
    Int.toNat_of_nonneg hq0]

/-- C12: for a plane width `w` in `0..32767`, the stride `(w + 7) / 8` that the
two-argument constructor of `BitPlaneBase` stores is the least number `s` of bytes with
`8 * s >= w`. -/
theorem default_stride_is_ceil (s : List Nat) (size : Size)
    (hw : 0 ≤ size.w ∧ size.w ≤ 32767) :
    ((BitPlaneBase.create s size).stride : Int) = (size.w + 7) / 8 ∧
      8 * ((BitPlaneBase.create s size).stride : Int) ≥ size.w ∧
      ∀ k : Nat, 8 * (k : Int) ≥ size.w → (BitPlaneBase.create s size).stride ≤ k := by
  have hs := create_stride s size hw
  refine ⟨hs, by omega, fun k hk => ?_⟩
  have : ((BitPlaneBase.create s size).stride : Int) ≤ k := by omega
  exact_mod_cast this

theorem default_stride_is_ceil_witness :
    ((BitPlaneBase.create [] ⟨9, 3⟩).stride : Int) = ((9 : Int) + 7) / 8 ∧
      8 * ((BitPlaneBase.create [] ⟨9, 3⟩).stride : Int) ≥ 9 ∧
      ∀ k : Nat, 8 * (k : Int) ≥ 9 → (BitPlaneBase.create [] ⟨9, 3⟩).stride ≤ k :=
  default_stride_is_ceil [] ⟨9, 3⟩ (by decide)

theorem bitPlane_length (W H : Nat) (bytes : Nat → Nat) (hW : W ≤ 32767) (hH : H ≤ 32767) :
    (BitPlane W H bytes).storage.length = (W + 7) * H / 8 := by
  have h1 : (W + 7) * H ≤ 32774 * 32767 := Nat.mul_le_mul (by omega) hH
  simp only [BitPlane, BitPlaneBase.create, List.length_map, List.length_range]
  rw [Nat.mod_eq_of_lt (by omega : W + 7 < 2 ^ 32), Nat.mod_eq_of_lt (by omega)]

theorem bitPlane_stride (W H : Nat) (bytes : Nat → Nat) (hW : W ≤ 32767) :
    (BitPlane W H bytes).stride = (W + 7) / 8 := by
  have hw : wrap16 (W : Int) = W := by unfold wrap16; omega
  have hsz : (Size.ofInts (W : Int) (H : Int)).w = W := by simp only [Size.ofInts, hw]
  have key : ((BitPlane W H bytes).stride : Int) = ((W : Int) + 7) / 8 := by
    unfold BitPlane
    rw [create_stride _ _ (by rw [hsz]; omega), hsz]
  omega

/-- C18: for `W, H` in `1..32767` the array of `BitPlane<W,H>` has
`((W + 7) * H) / 8` bytes, which is at least `((W + 7) / 8) * H`, the stride set by the
`BitPlaneBase` constructor times the number of rows; so for a pixel `(x, y)` with
`0 <= x < W` and `0 <= y < H` the byte index `y * stride + x / 8` is non-negative and
below the array length. -/
theorem bitplane_buffer_holds_rows (W H : Nat) (bytes : Nat → Nat) (p : Point)
    (hW : 1 ≤ W ∧ W ≤ 32767) (hH : 1 ≤ H ∧ H ≤ 32767)
    (hx : 0 ≤ p.x ∧ p.x < W) (hy : 0 ≤ p.y ∧ p.y < H) :
    (BitPlane W H bytes).storage.length = (W + 7) * H / 8 ∧
      (BitPlane W H bytes).stride = (W + 7) / 8 ∧
      (W + 7) / 8 * H ≤ (W + 7) * H / 8 ∧
      0 ≤ (BitPlane W H bytes).byteIndex p ∧
      (BitPlane W H bytes).byteIndex p < (BitPlane W H bytes).storage.length := by
  have hl := bitPlane_length W H bytes hW.2 hH.2
  have hs := bitPlane_stride W H bytes hW.2
  have hle : (W + 7) / 8 * H ≤ (W + 7) * H / 8 := by
    rw [Nat.le_div_iff_mul_le (by norm_num)]
    calc (W + 7) / 8 * H * 8 = (W + 7) / 8 * 8 * H := by ring
      _ ≤ (W + 7) * H := Nat.mul_le_mul_right H (Nat.div_mul_le_self (W + 7) 8)
  obtain ⟨hx0, hx1⟩ := hx
  obtain ⟨hy0, hy1⟩ := hy
  have hq : (((W + 7) / 8 : Nat) : Int) = ((W : Int) + 7) / 8 := by push_cast; rfl
  have hxq : Int.tdiv p.x 8 = p.x / 8 := Int.tdiv_eq_ediv hx0 (by norm_num)
  have hx8 : p.x / 8 + 1 ≤ ((W : Int) + 7) / 8 := by omega
  have hx80 : 0 ≤ p.x / 8 := Int.ediv_nonneg hx0 (by norm_num)
  have hyq : p.y * (((W : Int) + 7) / 8) ≤ ((H : Int) - 1) * (((W : Int) + 7) / 8) :=
    mul_le_mul_of_nonneg_right (by omega) (by omega)
  have hy0q : 0 ≤ p.y * (((W : Int) + 7) / 8) := mul_nonneg hy0 (by omega)
  have hleZ : (((W : Int) + 7) / 8) * (H : Int) ≤ ((BitPlane W H bytes).storage.length : Int) := by
    rw [hl, ← hq]
    exact_mod_cast hle
  refine ⟨hl, hs, hle, ?_, ?_⟩
  · simp only [BitPlaneBase.byteIndex, hs, hq, hxq]
    omega
  · simp only [BitPlaneBase.byteIndex, hs, hq, hxq]
    have e : ((H : Int) - 1) * (((W : Int) + 7) / 8) =
        (((W : Int) + 7) / 8) * (H : Int) - ((W : Int) + 7) / 8 := by ring
    omega

theorem bitplane_buffer_holds_rows_witness :
    (BitPlane 9 3 (fun _ => 0)).storage.length = (9 + 7) * 3 / 8 ∧
      (BitPlane 9 3 (fun _ => 0)).stride = (9 + 7) / 8 ∧
      (9 + 7) / 8 * 3 ≤ (9 + 7) * 3 / 8 ∧
      0 ≤ (BitPlane 9 3 (fun _ => 0)).byteIndex ⟨8, 2⟩ ∧
      (BitPlane 9 3 (fun _ => 0)).byteIndex ⟨8, 2⟩ <
        (BitPlane 9 3 (fun _ => 0)).storage.length :=
  bitplane_buffer_holds_rows 9 3 (fun _ => 0) ⟨8, 2⟩
    (by decide) (by decide) (by decide) (by decide)

/-! ## Size and Rect: the claims -/

theorem wrap16_isCoord (z : Int) : isCoord (wrap16 z) := by
  unfold isCoord wrap16
  omega

theorem wrap16_of_isCoord (z : Int) (h : isCoord z) : wrap16 z = z := by
  unfold isCoord at h
  unfold wrap16
  omega

/-- The difference of two coords is truncated to zero only when it is zero. -/
theorem wrap16_sub_eq_zero (a b : Int) (ha : isCoord a) (hb : isCoord b) :
    wrap16 (a - b) = 0 ↔ a = b := by
  unfold isCoord at ha hb
  unfold wrap16
  omega

/-- The `int` product of two coords does not overflow. -/
theorem coord_mul_fitsInt (a b : Int) (ha : isCoord a) (hb : isCoord b) :
    fitsInt (a * b) := by
  unfold isCoord at ha hb
  have h1 : |a| ≤ 32768 := abs_le.mpr ⟨by omega, by omega⟩
  have h2 : |b| ≤ 32768 := abs_le.mpr ⟨by omega, by omega⟩
  have h3 : |a * b| ≤ 32768 * 32768 := by
    rw [abs_mul]
    exact mul_le_mul h1 h2 (abs_nonneg b) (by norm_num)
  have h4 := abs_le.mp h3
  unfold fitsInt
  constructor <;> omega

/-- C13: for a `Rect` whose corner coordinates are 16-bit signed values, `empty()` is
true exactly when `max.x == min.x` or `max.y == min.y`, although `width()` and
`height()` truncate the differences to 16 bits; the product they form fits an `int`. -/
theorem rect_empty_iff_zero_extent (r : Rect)
    (hmin : isCoord r.min.x ∧ isCoord r.min.y) (hmax : isCoord r.max.x ∧ isCoord r.max.y) :
    (r.empty = true ↔ r.max.x = r.min.x ∨ r.max.y = r.min.y) ∧
      fitsInt (r.width * r.height) := by
  constructor
  · simp only [Rect.empty, decide_eq_true_eq, mul_eq_zero, Rect.width, Rect.height,
      wrap16_sub_eq_zero _ _ hmax.1 hmin.1, wrap16_sub_eq_zero _ _ hmax.2 hmin.2]
  · exact coord_mul_fitsInt _ _ (wrap16_isCoord _) (wrap16_isCoord _)

theorem rect_empty_iff_zero_extent_witness :
    ((Rect.mk ⟨-32768, 0⟩ ⟨32767, 5⟩).empty = true ↔
        (32767 : Int) = -32768 ∨ (5 : Int) = 0) ∧
      fitsInt ((Rect.mk ⟨-32768, 0⟩ ⟨32767, 5⟩).width *
        (Rect.mk ⟨-32768, 0⟩ ⟨32767, 5⟩).height) :=
  rect_empty_iff_zero_extent (Rect.mk ⟨-32768, 0⟩ ⟨32767, 5⟩) (by decide) (by decide)

/-- C14: for a `Size` with 16-bit signed `w` and `h`, the product `w*h` is formed in
`int` without overflow and `empty()` is true exactly when `w == 0` or `h == 0`; the
size with `w = h = 256` is not empty. -/
theorem size_empty_iff_zero_side (s : Size) (hw : isCoord s.w) (hh : isCoord s.h) :
    fitsInt (s.w * s.h) ∧ (s.empty = true ↔ s.w = 0 ∨ s.h = 0) ∧
      (Size.mk 256 256).empty = false := by
  refine ⟨coord_mul_fitsInt _ _ hw hh, ?_, by decide⟩
  simp only [Size.empty, decide_eq_true_eq, mul_eq_zero]

theorem size_empty_iff_zero_side_witness :
    fitsInt ((-32768 : Int) * -32768) ∧
      ((Size.mk (-32768) (-32768)).empty = true ↔ (-32768 : Int) = 0 ∨ (-32768 : Int) = 0) ∧
      (Size.mk 256 256).empty = false :=
  size_empty_iff_zero_side (Size.mk (-32768) (-32768)) (by decide) (by decide)

/-- C20: for a `Rect` with `normal()` true whose differences `max.x - min.x` and
`max.y - min.y` are at most 32767, `width()` and `height()` are these differences,
without 16-bit wraparound and non-negative, and `size().empty()` agrees with
`empty()`. -/
theorem normal_rect_extents (r : Rect) (hn : r.normal = true)
    (hx : r.max.x - r.min.x ≤ 32767) (hy : r.max.y - r.min.y ≤ 32767) :
    r.width = r.max.x - r.min.x ∧ 0 ≤ r.width ∧
      r.height = r.max.y - r.min.y ∧ 0 ≤ r.height ∧
      r.size.empty = r.empty := by
  simp only [Rect.normal, Bool.and_eq_true, decide_eq_true_eq, ge_iff_le] at hn
  obtain ⟨hn1, hn2⟩ := hn
  have hw : r.width = r.max.x - r.min.x := by
    simp only [Rect.width]
    exact wrap16_of_isCoord _ ⟨by omega, hx⟩
  have hh : r.height = r.max.y - r.min.y := by
    simp only [Rect.height]
    exact wrap16_of_isCoord _ ⟨by omega, hy⟩
  refine ⟨hw, by omega, hh, by omega, ?_⟩
  have e1 : wrap16 r.width = r.width := wrap16_of_isCoord _ (wrap16_isCoord _)
  have e2 : wrap16 r.height = r.height := wrap16_of_isCoord _ (wrap16_isCoord _)
  simp only [Rect.size, Size.ofInts, Size.empty, Rect.empty, e1, e2]

theorem normal_rect_extents_witness :
    (Rect.mk ⟨-3, 4⟩ ⟨32764, 4⟩).width = 32764 - -3 ∧
      0 ≤ (Rect.mk ⟨-3, 4⟩ ⟨32764, 4⟩).width ∧
      (Rect.mk ⟨-3, 4⟩ ⟨32764, 4⟩).height = 4 - 4 ∧
      0 ≤ (Rect.mk ⟨-3, 4⟩ ⟨32764, 4⟩).height ∧
      (Rect.mk ⟨-3, 4⟩ ⟨32764, 4⟩).size.empty = (Rect.mk ⟨-3, 4⟩ ⟨32764, 4⟩).empty :=
  normal_rect_extents (Rect.mk ⟨-3, 4⟩ ⟨32764, 4⟩) (by decide) (by decide) (by decide)

/-! ## Second round on rings, planes and glyphs -/

/-- C15, evaluated: on the 2 by 2 plane `set_pixels((1, 0), 2, 7)` passes both
assertions and writes the cells 1 and 2; cell 2 is the pixel (0, 1) of the next row,
outside `[0*2, 0*2 + 2)`. The run of `set_pixel` calls fails an assertion on the same
input, and `set_pixels((1, 1), 2, 7)` runs past the end of the array without failing
one. -/
theorem set_pixels_overruns_row :
    plane22.InBounds ⟨1, 0⟩ ∧ plane22.storage = [10, 11, 12, 13] ∧
      (∃ g, AddressablePlane.set_pixels (unsignedWord 16) plane22 ⟨1, 0⟩ 2 7 = .ok g ∧
        g.storage = [10, 7, 7, 13] ∧ g.cell ⟨0, 1⟩ = .ok 7) ∧
      storageIndex plane22.size ⟨0, 1⟩ = 2 ∧
      ¬ ((0 : Int) * plane22.size.w ≤ 2 ∧ (2 : Int) < 0 * plane22.size.w + plane22.size.w) ∧
      AddressablePlane.set_pixels_default (unsignedWord 16) plane22 ⟨1, 0⟩ 2 7 =
        .error .assertion ∧
      AddressablePlane.set_pixels (unsignedWord 16) plane22 ⟨1, 1⟩ 2 7 = .error .outside := by
  refine ⟨by decide, rfl, ⟨_, rfl, rfl, rfl⟩, by decide, by decide, rfl, rfl⟩

/-- C16: in a structure where `m.right.left == m` and `m.left.right == m` hold for
every node `m`, `n.left == n` exactly when `n.right == n`; so `empty()`, which tests
only `left`, is true exactly when `n` is a singleton ring. -/
theorem empty_checks_one_side {α : Type} [DecidableEq α] (h : RingHeap α)
    (hc : h.Circular) (n : α) :
    (h.left n = n ↔ h.right n = n) ∧
      (h.empty n = true ↔ h.left n = n ∧ h.right n = n) := by
  have key : h.left n = n ↔ h.right n = n := by
    constructor
    · intro e
      have := (hc n).2
      rwa [e] at this
    · intro e
      have := (hc n).1
      rwa [e] at this
  refine ⟨key, ?_⟩
  simp only [RingHeap.empty, decide_eq_true_eq]
  exact ⟨fun e => ⟨e, key.mp e⟩, fun e => e.1⟩

theorem empty_checks_one_side_witness :
    ((RingHeap.join ring3 1 1).left 1 = 1 ↔ (RingHeap.join ring3 1 1).right 1 = 1) ∧
      ((RingHeap.join ring3 1 1).empty 1 = true ↔
        (RingHeap.join ring3 1 1).left 1 = 1 ∧ (RingHeap.join ring3 1 1).right 1 = 1) :=
  empty_checks_one_side (RingHeap.join ring3 1 1) (by decide) 1

/-- C17: on a plane that has its `w*h` cells, for in-bounds points `p != q` the
indices `p.y*w + p.x` and `q.y*w + q.x` differ, `set_pixel(p, v)` succeeds, and
`get_pixel(q)` returns afterwards what it returned before. -/
theorem set_pixel_changes_one_pixel {τ : Type} (c : PixelCast τ) (pl : AddressablePlane τ)
    (p q : Point) (v : Nat) (hb : pl.Backed) (hp : pl.InBounds p) (hq : pl.InBounds q)
    (hne : p ≠ q) :
    storageIndex pl.size p ≠ storageIndex pl.size q ∧
      ∃ g, AddressablePlane.set_pixel c pl p v = .ok g ∧
        AddressablePlane.get_pixel c g q = AddressablePlane.get_pixel c pl q := by
  have hp0 := (AddressablePlane.index_in_storage pl p hb hp).1
  have hq0 := (AddressablePlane.index_in_storage pl q hb hq).1
  have hidx : storageIndex pl.size p ≠ storageIndex pl.size q := by
    intro e
    have hrun := (AddressablePlane.index_in_run pl.size p q 1 hp.1.1
      (by have := hp.1.2; push_cast; omega) hq.1).mp ⟨by omega, by push_cast; omega⟩
    apply hne
    cases p
    cases q
    simp only [Point.mk.injEq]
    simp only [Nat.cast_one] at hrun
    exact ⟨by omega, hrun.1.symm⟩
  refine ⟨hidx, _, AddressablePlane.set_pixel_ok c pl p v hb hp, ?_⟩
  have hn : (storageIndex pl.size p).toNat ≠ (storageIndex pl.size q).toNat := by omega
  unfold AddressablePlane.get_pixel
  rw [AddressablePlane.cell_eq pl q hq0, AddressablePlane.cell_eq { pl with
    storage := pl.storage.set (storageIndex pl.size p).toNat (c.ofPixel v) } q hq0]
  simp only [List.getElem?_set, hn, if_false]

theorem set_pixel_changes_one_pixel_witness :
    storageIndex plane22.size ⟨1, 0⟩ ≠ storageIndex plane22.size ⟨0, 1⟩ ∧
      ∃ g, AddressablePlane.set_pixel (unsignedWord 16) plane22 ⟨1, 0⟩ 7 = .ok g ∧
        AddressablePlane.get_pixel (unsignedWord 16) g ⟨0, 1⟩ =
          AddressablePlane.get_pixel (unsignedWord 16) plane22 ⟨0, 1⟩ :=
  set_pixel_changes_one_pixel (unsignedWord 16) plane22 ⟨1, 0⟩ ⟨0, 1⟩ 7
    (by decide) (by decide) (by decide) (by decide)

/-- C19: for a font with `first <= last` (both `unsigned char`, `glyph_stride` a
`uint16_t`) and any character code, the byte offset of `glyph(c)` is `k * glyph_stride`
for some `k <= last - first`, so it lies in `[0, (last - first) * glyph_stride]` and
addresses one of the `last - first + 1` records; the difference `c - first` and the
product fit an `int`. -/
theorem glyph_within_font (f : MikroFont) (c : Nat) (hfl : f.first ≤ f.last)
    (hl : f.last ≤ 255) (hs : f.glyph_stride ≤ 65535) :
    (∃ k : Nat, k ≤ f.last - f.first ∧ f.glyph c = (k : Int) * f.glyph_stride) ∧
      0 ≤ f.glyph c ∧ f.glyph c ≤ ((f.last : Int) - f.first) * f.glyph_stride ∧
      fitsInt (f.glyph c) := by
  have hk : ∃ k : Nat, k ≤ f.last - f.first ∧ f.glyph c = (k : Int) * f.glyph_stride := by
    by_cases hc : c < f.first ∨ c > f.last
    · exact ⟨0, Nat.zero_le _, by simp [MikroFont.glyph, hc]⟩
    · refine ⟨c - f.first, by omega, ?_⟩
      simp only [MikroFont.glyph, hc, if_false]
      congr 1
      omega
  obtain ⟨k, hk1, hk2⟩ := hk
  have h1 : (k : Int) * f.glyph_stride ≤ ((f.last : Int) - f.first) * f.glyph_stride :=
    mul_le_mul_of_nonneg_right (by omega) (Int.natCast_nonneg _)
  have h2 : ((f.last : Int) - f.first) * f.glyph_stride ≤ 255 * 65535 :=
    mul_le_mul (by omega) (by omega) (Int.natCast_nonneg _) (by norm_num)
  have h0 : 0 ≤ (k : Int) * f.glyph_stride :=
    mul_nonneg (Int.natCast_nonneg _) (Int.natCast_nonneg _)
  refine ⟨⟨k, hk1, hk2⟩, by omega, by omega, ?_⟩
  unfold fitsInt
  omega

theorem glyph_within_font_witness :
    (∃ k : Nat, k ≤ digitFont.last - digitFont.first ∧
        digitFont.glyph 200 = (k : Int) * digitFont.glyph_stride) ∧
      0 ≤ digitFont.glyph 200 ∧
      digitFont.glyph 200 ≤
        ((digitFont.last : Int) - digitFont.first) * digitFont.glyph_stride ∧
      fitsInt (digitFont.glyph 200) :=
  glyph_within_font digitFont 200 (by decide) (by decide) (by decide)

end akt.views
